import Mathlib

/-!
Shallow embedding of the music-library subsystem of the vicinae-extensions
repository (path normalization, starred/collection registries, filter engine,
directory scanner, flat-file cache loader) together with the process-killer
guard of the process-management extension.  Strings are modelled as `List Char`;
JavaScript `Set` objects are modelled as `Finset`; filesystem and JSON inputs
are modelled explicitly so that every definition is executable.
-/

/-- JavaScript whitespace test (ASCII portion of the regex class `\s`). -/
def isWs (c : Char) : Bool :=
  c == ' ' || c == '\t' || c == '\n' || c == '\r' || c == '\x0b' || c == '\x0c'

/-- Uppercase-to-lowercase table for the ASCII letters; models the effect of
`String.prototype.toLowerCase` on the character range the repository uses. -/
def upperLowerTable : List (Char × Char) :=
  [('A', 'a'), ('B', 'b'), ('C', 'c'), ('D', 'd'), ('E', 'e'), ('F', 'f'),
   ('G', 'g'), ('H', 'h'), ('I', 'i'), ('J', 'j'), ('K', 'k'), ('L', 'l'),
   ('M', 'm'), ('N', 'n'), ('O', 'o'), ('P', 'p'), ('Q', 'q'), ('R', 'r'),
   ('S', 's'), ('T', 't'), ('U', 'u'), ('V', 'v'), ('W', 'w'), ('X', 'x'),
   ('Y', 'y'), ('Z', 'z')]

/-- Lowercase a single character (ASCII model of JS `toLowerCase`). -/
def jsLowerChar (c : Char) : Char :=
  match upperLowerTable.lookup c with
  | some l => l
  | none => c

/-- Lowercase a whole string: JS `s.toLowerCase()`. -/
def lowerStr (s : List Char) : List Char :=
  s.map jsLowerChar

/-- JS `s.trim()`: strip leading and trailing whitespace. -/
def trimStr (s : List Char) : List Char :=
  ((s.dropWhile isWs).reverse.dropWhile isWs).reverse

/-- Worker for `collapseRuns`; the boolean records whether the previous kept
character belonged to the run currently being replaced. -/
def collapseRunsGo (p : Char → Bool) (r : Char) : Bool → List Char → List Char
  | _, [] => []
  | prev, c :: rest =>
    if p c then
      if prev then collapseRunsGo p r true rest
      else r :: collapseRunsGo p r true rest
    else c :: collapseRunsGo p r false rest

/-- Replace every maximal run of characters satisfying `p` by the single
character `r`: JS `s.replace(/p+/g, r)`. -/
def collapseRuns (p : Char → Bool) (r : Char) (s : List Char) : List Char :=
  collapseRunsGo p r false s

/-- Node `path.basename`: strip trailing slashes, then keep the portion after
the last remaining slash. -/
def basename (s : List Char) : List Char :=
  ((s.reverse.dropWhile (fun c => c == '/')).takeWhile (fun c => c != '/')).reverse

/-- `normalizePath` from `music/src/utils.ts`: basename, lowercased, whitespace
runs replaced by underscores. -/
def normalizePath (path : List Char) : List Char :=
  collapseRuns isWs '_' (lowerStr (basename path))

/-- `pathsMatch` from `music/src/utils.ts`. -/
def pathsMatch (path1 path2 : List Char) : Bool :=
  normalizePath path1 == normalizePath path2

-- Basic lemmas about the character table and the string utilities.

theorem lookup_mem {α β : Type} [DecidableEq α] :
    ∀ (ps : List (α × β)) (a : α) (b : β), ps.lookup a = some b → (a, b) ∈ ps := by
  intro ps
  induction ps with
  | nil => intro a b h; simp [List.lookup] at h
  | cons hd tl ih =>
    obtain ⟨k, v⟩ := hd
    intro a b h
    by_cases hab : a = k
    · subst hab
      simp [List.lookup] at h
      subst h
      exact List.mem_cons_self _ _
    · have hbeq : (a == k) = false := beq_false_of_ne hab
      simp [List.lookup, hbeq] at h
      exact List.mem_cons_of_mem _ (ih a b h)

theorem jsLowerChar_fixed_of_lookup_none {c : Char}
    (h : upperLowerTable.lookup c = none) : jsLowerChar c = c := by
  simp [jsLowerChar, h]

theorem jsLowerChar_eq_of_lookup_some {c l : Char}
    (h : upperLowerTable.lookup c = some l) : jsLowerChar c = l := by
  simp [jsLowerChar, h]

theorem table_images_not_keys :
    ∀ pr ∈ upperLowerTable, upperLowerTable.lookup pr.2 = none := by decide

theorem table_images_ne_slash : ∀ pr ∈ upperLowerTable, pr.2 ≠ '/' := by decide

theorem jsLowerChar_idem (c : Char) : jsLowerChar (jsLowerChar c) = jsLowerChar c := by
  cases hl : upperLowerTable.lookup c with
  | none => rw [jsLowerChar_fixed_of_lookup_none hl, jsLowerChar_fixed_of_lookup_none hl]
  | some l =>
    rw [jsLowerChar_eq_of_lookup_some hl]
    exact jsLowerChar_fixed_of_lookup_none
      (table_images_not_keys (c, l) (lookup_mem _ _ _ hl))

theorem jsLowerChar_ne_slash {c : Char} (h : c ≠ '/') : jsLowerChar c ≠ '/' := by
  cases hl : upperLowerTable.lookup c with
  | none => rw [jsLowerChar_fixed_of_lookup_none hl]; exact h
  | some l =>
    rw [jsLowerChar_eq_of_lookup_some hl]
    exact table_images_ne_slash (c, l) (lookup_mem _ _ _ hl)

theorem collapseRunsGo_mem {p : Char → Bool} {r : Char} :
    ∀ (b : Bool) (l : List Char) (c : Char), c ∈ collapseRunsGo p r b l →
      c = r ∨ (c ∈ l ∧ p c = false) := by
  intro b l
  induction l generalizing b with
  | nil => intro c h; simp [collapseRunsGo] at h
  | cons hd tl ih =>
    intro c h
    simp only [collapseRunsGo] at h
    by_cases hp : p hd
    · rw [if_pos hp] at h
      cases b with
      | true =>
        simp only [if_pos rfl] at h
        rcases ih true c h with h1 | h2
        · exact Or.inl h1
        · exact Or.inr ⟨List.mem_cons_of_mem _ h2.1, h2.2⟩
      | false =>
        simp only [Bool.false_eq_true, if_neg] at h
        rcases List.mem_cons.mp h with h1 | h1
        · exact Or.inl h1
        · rcases ih true c h1 with h2 | h3
          · exact Or.inl h2
          · exact Or.inr ⟨List.mem_cons_of_mem _ h3.1, h3.2⟩
    · rw [if_neg hp] at h
      rcases List.mem_cons.mp h with h1 | h1
      · subst h1
        exact Or.inr ⟨List.mem_cons_self _ _, by simpa using hp⟩
      · rcases ih false c h1 with h2 | h3
        · exact Or.inl h2
        · exact Or.inr ⟨List.mem_cons_of_mem _ h3.1, h3.2⟩

theorem collapseRunsGo_id {p : Char → Bool} {r : Char} :
    ∀ (b : Bool) (l : List Char), (∀ c ∈ l, p c = false) → collapseRunsGo p r b l = l := by
  intro b l
  induction l generalizing b with
  | nil => intro _; rfl
  | cons hd tl ih =>
    intro h
    have hhd : p hd = false := h hd (List.mem_cons_self _ _)
    unfold collapseRunsGo
    rw [if_neg (by simp [hhd])]
    rw [ih false (fun c hc => h c (List.mem_cons_of_mem _ hc))]

theorem takeWhile_all {p : Char → Bool} :
    ∀ (l : List Char), (∀ c ∈ l, p c = true) → l.takeWhile p = l := by
  intro l h
  exact List.takeWhile_eq_self_iff.mpr h

theorem dropWhile_none {p : Char → Bool} :
    ∀ (l : List Char), (∀ c ∈ l, p c = false) → l.dropWhile p = l := by
  intro l h
  cases l with
  | nil => rfl
  | cons hd tl =>
    rw [List.dropWhile_cons_of_neg]
    simp [h hd (List.mem_cons_self _ _)]

theorem basename_of_no_slash {l : List Char} (h : '/' ∉ l) : basename l = l := by
  unfold basename
  have h1 : ∀ c ∈ l.reverse, (c == '/') = false := by
    intro c hc
    have hmem : c ∈ l := List.mem_reverse.mp hc
    have : c ≠ '/' := fun he => h (he ▸ hmem)
    simpa using this
  rw [dropWhile_none _ h1]
  have h2 : ∀ c ∈ l.reverse, (c != '/') = true := by
    intro c hc
    have hmem : c ∈ l := List.mem_reverse.mp hc
    have hne : c ≠ '/' := fun he => h (he ▸ hmem)
    simpa using hne
  rw [takeWhile_all _ h2, List.reverse_reverse]

theorem mem_basename_imp {l : List Char} {c : Char} (h : c ∈ basename l) : c ≠ '/' := by
  unfold basename at h
  have h1 := List.mem_takeWhile_imp (List.mem_reverse.mp h)
  simpa using h1

theorem normalizePath_no_slash (p : List Char) : '/' ∉ normalizePath p := by
  intro hmem
  unfold normalizePath collapseRuns at hmem
  rcases collapseRunsGo_mem _ _ _ hmem with h1 | h2
  · exact absurd h1 (by decide)
  · rcases List.mem_map.mp h2.1 with ⟨c, hc, hlc⟩
    exact jsLowerChar_ne_slash (mem_basename_imp hc) hlc

theorem normalizePath_chars {p : List Char} {c : Char} (h : c ∈ normalizePath p) :
    c = '_' ∨ (isWs c = false ∧ ∃ c0, c = jsLowerChar c0) := by
  unfold normalizePath collapseRuns at h
  rcases collapseRunsGo_mem _ _ _ h with h1 | h2
  · exact Or.inl h1
  · rcases List.mem_map.mp h2.1 with ⟨c0, _, hlc⟩
    exact Or.inr ⟨h2.2, c0, hlc.symm⟩

theorem map_id_of_fixed {f : Char → Char} :
    ∀ (l : List Char), (∀ c ∈ l, f c = c) → l.map f = l := by
  intro l
  induction l with
  | nil => intro _; rfl
  | cons hd tl ih =>
    intro h
    simp only [List.map_cons]
    rw [h hd (List.mem_cons_self _ _), ih (fun c hc => h c (List.mem_cons_of_mem _ hc))]

theorem normalizePath_no_ws {p : List Char} {c : Char} (h : c ∈ normalizePath p) :
    isWs c = false := by
  rcases normalizePath_chars h with h1 | h2
  · subst h1; decide
  · exact h2.1

theorem lowerStr_normalizePath (p : List Char) :
    lowerStr (normalizePath p) = normalizePath p := by
  unfold lowerStr
  apply map_id_of_fixed
  intro c hc
  rcases normalizePath_chars hc with h1 | h2
  · subst h1; decide
  · rcases h2.2 with ⟨c0, hc0⟩
    rw [hc0]
    exact jsLowerChar_idem c0

theorem normalizePath_idem (p : List Char) :
    normalizePath (normalizePath p) = normalizePath p := by
  conv_lhs => rw [normalizePath]
  rw [basename_of_no_slash (normalizePath_no_slash p), lowerStr_normalizePath]
  exact collapseRunsGo_id false _ (fun c hc => normalizePath_no_ws hc)

-- # Data model of the music extension (`music/src/types.ts` and friends)

/-- A scanned release: `{ title, path, track_count }`. -/
structure ReleaseData where
  title : List Char
  path : List Char
  track_count : Nat
deriving DecidableEq, Repr

/-- `FilterState` from `music/src/filtering.ts`. -/
structure FilterState where
  query : List Char
  starFilter : Bool
  collectionFilter : List Char
deriving DecidableEq, Repr

/-- `StarredManager` from `music/src/starred.ts`: a JS `Set<string>` of
normalized path keys, modelled as a `Finset`.  Every persisting `save()` call
writes exactly `Array.from(this.starredPaths)`, so the persisted content is the
field itself. -/
structure StarredManager where
  starredPaths : Finset (List Char)
deriving DecidableEq

def StarredManager.isStarred (m : StarredManager) (path : List Char) : Bool :=
  decide (normalizePath path ∈ m.starredPaths)

def StarredManager.add (m : StarredManager) (path : List Char) : StarredManager :=
  ⟨insert (normalizePath path) m.starredPaths⟩

def StarredManager.remove (m : StarredManager) (path : List Char) : StarredManager :=
  ⟨m.starredPaths.erase (normalizePath path)⟩

/-- `toggle` from `music/src/starred.ts`: returns the new membership boolean
together with the updated (and persisted) manager state. -/
def StarredManager.toggle (m : StarredManager) (path : List Char) :
    Bool × StarredManager :=
  if normalizePath path ∈ m.starredPaths then (false, m.remove path)
  else (true, m.add path)

/-- `Collection` from `music/src/collections.ts`: note that `add`, `remove` and
`contains` operate on the path argument as given, with no normalization. -/
structure Collection where
  name : List Char
  paths : Finset (List Char)
deriving DecidableEq

def Collection.add (c : Collection) (path : List Char) : Collection :=
  { c with paths := insert path c.paths }

def Collection.remove (c : Collection) (path : List Char) : Collection :=
  { c with paths := c.paths.erase path }

def Collection.contains (c : Collection) (path : List Char) : Bool :=
  decide (path ∈ c.paths)

/-- `CollectionManager` from `music/src/collections.ts`: a JS
`Map<string, Collection>`, modelled as an association list. -/
structure CollectionManager where
  collections : List (List Char × Collection)

def CollectionManager.get (cm : CollectionManager) (name : List Char) :
    Option Collection :=
  cm.collections.lookup name

-- # Filter engine (`music/src/filtering.ts`)

/-- JS `s.includes(sub)`: substring containment. -/
def includes (s sub : List Char) : Bool :=
  decide (sub <:+: s)

/-- The `MusicFilter` class holds the two registries. -/
structure MusicFilter where
  starredManager : StarredManager
  collectionManager : CollectionManager

/-- Step 1 of `MusicFilter.filter`: case-insensitive substring match of the
query against the title only, skipped when the trimmed query is empty. -/
def MusicFilter.queryStep (fs : FilterState) (releases : List ReleaseData) :
    List ReleaseData :=
  if trimStr fs.query ≠ [] then
    releases.filter (fun r => includes (lowerStr r.title) (lowerStr fs.query))
  else releases

/-- Step 2 of `MusicFilter.filter`: keep only starred releases when
`starFilter` is set. -/
def MusicFilter.starStep (mf : MusicFilter) (fs : FilterState)
    (l : List ReleaseData) : List ReleaseData :=
  if fs.starFilter then l.filter (fun r => mf.starredManager.isStarred r.path)
  else l

/-- The value of `filtered` just before the collection step of
`MusicFilter.filter` (the "pre-filter-3 result set"). -/
def MusicFilter.preFilterThree (mf : MusicFilter) (releases : List ReleaseData)
    (fs : FilterState) : List ReleaseData :=
  mf.starStep fs (MusicFilter.queryStep fs releases)

/-- Step 3 of `MusicFilter.filter`: when `collectionFilter` is non-empty and
the named collection exists, keep releases whose (raw) path is in the
collection; when the collection does not exist the code assigns
`filtered = releases`, i.e. the original input list. -/
def MusicFilter.collectionStep (mf : MusicFilter) (releases : List ReleaseData)
    (fs : FilterState) (l : List ReleaseData) : List ReleaseData :=
  if fs.collectionFilter ≠ [] then
    match mf.collectionManager.get fs.collectionFilter with
    | some c => l.filter (fun r => c.contains r.path)
    | none => releases
  else l

/-- `MusicFilter.filter` from `music/src/filtering.ts`. -/
def MusicFilter.filter (mf : MusicFilter) (releases : List ReleaseData)
    (fs : FilterState) : List ReleaseData :=
  mf.collectionStep releases fs (mf.preFilterThree releases fs)

/-- `levenshteinDistance` from `music/src/filtering.ts`.  The source fills a
DP matrix whose entry `matrix[i][j]` satisfies exactly this recurrence
(`+1` for substitution, insertion and deletion, free step on equal
characters); the recursion below is that recurrence. -/
def levenshteinDistance (a b : List Char) : Nat :=
  match a, b with
  | [], ys => ys.length
  | x :: xs, [] => (x :: xs).length
  | x :: xs, y :: ys =>
    if x = y then levenshteinDistance xs ys
    else
      min (levenshteinDistance xs ys)
        (min (levenshteinDistance (x :: xs) ys) (levenshteinDistance xs (y :: ys))) + 1
termination_by a.length + b.length
decreasing_by all_goals simp_arith

/-- `fuzzyScore` from `music/src/filtering.ts`. -/
def fuzzyScore (str1 str2 : List Char) : ℚ :=
  if includes str1 str2 || includes str2 str1 then
    (((if str2.length < str1.length then str2 else str1).length : ℚ) /
      ((if str2.length < str1.length then str1 else str2).length : ℚ))
  else
    if (if str2.length < str1.length then str1 else str2).length = 0 then 1
    else
      ((((if str2.length < str1.length then str1 else str2).length : ℚ) -
        (levenshteinDistance (if str2.length < str1.length then str1 else str2)
          (if str2.length < str1.length then str2 else str1) : ℚ)) /
        ((if str2.length < str1.length then str1 else str2).length : ℚ))

-- # Example data used by concrete evaluations

def exReleaseA : ReleaseData :=
  ⟨("Abbey Road").data, ("/music/Beatles/Abbey Road").data, 17⟩

def exReleaseT : ReleaseData :=
  ⟨("Thriller").data, ("/music/Michael Jackson/Thriller").data, 9⟩

/-- A filter whose starred set is empty and whose collection map is empty. -/
def exEmptyMF : MusicFilter := ⟨⟨∅⟩, ⟨[]⟩⟩

/-- Query "abbey" plus a collection name that no collection carries. -/
def exMissingFS : FilterState := ⟨("abbey").data, false, ("missing").data⟩

/-- An unnormalized path stored into a collection by `Collection.add`. -/
def exRawPath : List Char := ("/m/B C").data

def exRockCollection : Collection := Collection.add ⟨("rock").data, ∅⟩ exRawPath

-- # Claims about the filter engine and the registries

/-- C1, counterexample: with query "abbey" and a `collectionFilter` naming a
collection that does not exist, `MusicFilter.filter` returns the whole input
list, not the pre-filter-3 result set (which the query step had narrowed to
one release). -/
theorem claim1_counterexample :
    MusicFilter.filter exEmptyMF [exReleaseA, exReleaseT] exMissingFS ≠
      MusicFilter.preFilterThree exEmptyMF [exReleaseA, exReleaseT] exMissingFS ∧
    MusicFilter.filter exEmptyMF [exReleaseA, exReleaseT] exMissingFS =
      [exReleaseA, exReleaseT] ∧
    MusicFilter.preFilterThree exEmptyMF [exReleaseA, exReleaseT] exMissingFS =
      [exReleaseA] := by
  decide

/-- C1 (amended): when the non-empty `collectionFilter` names a collection
that does not exist, `MusicFilter.filter` returns the original input list
(discarding the query and star steps), not the pre-filter-3 result set. -/
theorem claim1_missing_collection_returns_input (mf : MusicFilter)
    (releases : List ReleaseData) (fs : FilterState)
    (hne : fs.collectionFilter ≠ [])
    (hget : mf.collectionManager.get fs.collectionFilter = none) :
    mf.filter releases fs = releases := by
  unfold MusicFilter.filter MusicFilter.collectionStep
  rw [if_pos hne, hget]

/-- Witness for C1's amended theorem at a concrete input. -/
theorem claim1_witness :
    MusicFilter.filter exEmptyMF [exReleaseA, exReleaseT] exMissingFS =
      [exReleaseA, exReleaseT] :=
  claim1_missing_collection_returns_input exEmptyMF [exReleaseA, exReleaseT]
    exMissingFS (by decide) (by decide)

/-- C2, counterexample: `Collection.add` stores the raw path (which is not a
normalized key), and `Collection.contains` does not normalize either side:
querying with the normalized form of the stored path fails. -/
theorem claim2_counterexample :
    (exRawPath ∈ exRockCollection.paths ∧ normalizePath exRawPath ≠ exRawPath) ∧
    exRockCollection.contains (normalizePath exRawPath) = false := by
  decide

/-- Keys of a starred set are normalization fixed points. -/
def allKeysNormalized (s : Finset (List Char)) : Prop :=
  ∀ k ∈ s, normalizePath k = k

/-- C2 (amended): the normalization invariant holds for `StarredManager`
(every mutation stores only normalized keys and `isStarred` normalizes its
argument before the membership test), but `Collection.add`/`contains` operate
on raw paths with no normalization, and the filter engine's collection step
compares the raw `release.path` against the collection's raw stored keys. -/
theorem claim2_normalization_policy :
    (∀ (m : StarredManager) (p : List Char), allKeysNormalized m.starredPaths →
      allKeysNormalized (m.add p).starredPaths ∧
      allKeysNormalized (m.remove p).starredPaths ∧
      allKeysNormalized (m.toggle p).2.starredPaths) ∧
    (∀ (m : StarredManager) (p : List Char),
      m.isStarred p = decide (normalizePath p ∈ m.starredPaths)) ∧
    (∀ (c : Collection) (p : List Char),
      (c.add p).paths = insert p c.paths ∧
      c.contains p = decide (p ∈ c.paths)) ∧
    (∀ (mf : MusicFilter) (releases l : List ReleaseData) (fs : FilterState)
        (c : Collection),
      fs.collectionFilter ≠ [] →
      mf.collectionManager.get fs.collectionFilter = some c →
      mf.collectionStep releases fs l =
        l.filter (fun r => decide (r.path ∈ c.paths))) := by
  refine ⟨?_, fun m p => rfl, fun c p => ⟨rfl, rfl⟩, ?_⟩
  · intro m p hinv
    have hadd : allKeysNormalized (m.add p).starredPaths := by
      intro k hk
      rcases Finset.mem_insert.mp hk with h1 | h2
      · subst h1; exact normalizePath_idem p
      · exact hinv k h2
    have hrem : allKeysNormalized (m.remove p).starredPaths := by
      intro k hk
      exact hinv k (Finset.mem_of_mem_erase hk)
    refine ⟨hadd, hrem, ?_⟩
    unfold StarredManager.toggle
    by_cases h : normalizePath p ∈ m.starredPaths
    · rw [if_pos h]; exact hrem
    · rw [if_neg h]; exact hadd
  · intro mf releases l fs c hne hget
    unfold MusicFilter.collectionStep
    rw [if_pos hne, hget]
    rfl

/-- Witness for C2's amended theorem: the invariant-preservation part applied
to the empty starred set and a concrete path. -/
theorem claim2_witness :
    allKeysNormalized ((StarredManager.mk ∅).add exRawPath).starredPaths :=
  (claim2_normalization_policy.1 ⟨∅⟩ exRawPath
    (fun k hk => absurd hk (Finset.not_mem_empty k))).1

/-- C5: `toggle` is an involution on the starred state (hence on the persisted
set, which `save` writes verbatim), and each call returns the new membership
boolean — true exactly when the path is starred after the call. -/
theorem claim5_toggle_involution (m : StarredManager) (p : List Char) :
    ((m.toggle p).2.toggle p).2 = m ∧
    (m.toggle p).1 = (m.toggle p).2.isStarred p := by
  obtain ⟨s⟩ := m
  constructor
  · by_cases h : normalizePath p ∈ s
    · simp [StarredManager.toggle, StarredManager.remove, StarredManager.add,
        h, Finset.not_mem_erase, Finset.insert_erase h]
    · simp [StarredManager.toggle, StarredManager.remove, StarredManager.add,
        h, Finset.mem_insert_self, Finset.erase_insert h]
  · by_cases h : normalizePath p ∈ s <;>
      simp [StarredManager.toggle, StarredManager.isStarred, StarredManager.remove,
        StarredManager.add, h, Finset.not_mem_erase]

/-- C6: the all-empty `FilterState` makes `MusicFilter.filter` the identity:
every step's guard is disabled, so the input list comes back unchanged and in
order. -/
theorem claim6_empty_filter_identity (mf : MusicFilter)
    (releases : List ReleaseData) :
    mf.filter releases ⟨[], false, []⟩ = releases := by
  rfl

/-- C7: `normalizePath` lowercases the basename and replaces whitespace runs
by underscores: both "/a/B C" and "B C" normalize to "b_c", and normalization
is idempotent on inputs free of path separators. -/
theorem claim7_normalizePath :
    (normalizePath (("/a/B C").data) = ("b_c").data ∧
     normalizePath (("B C").data) = ("b_c").data) ∧
    ∀ x : List Char, '/' ∉ x → normalizePath (normalizePath x) = normalizePath x := by
  exact ⟨by decide, fun x _ => normalizePath_idem x⟩

/-- Witness for C7 at a concrete separator-free input. -/
theorem claim7_witness :
    normalizePath (normalizePath (("b c").data)) = normalizePath (("b c").data) :=
  claim7_normalizePath.2 (("b c").data) (by decide)

-- # Levenshtein distance bound and fuzzy score bounds

theorem levenshteinDistance_le_max :
    ∀ (a b : List Char), levenshteinDistance a b ≤ max a.length b.length := by
  intro a b
  induction a, b using levenshteinDistance.induct with
  | case1 ys => simp [levenshteinDistance]
  | case2 x xs => simp [levenshteinDistance]
  | case3 xs y ys ih =>
    rw [levenshteinDistance, if_pos rfl]
    simp only [List.length_cons]
    omega
  | case4 x xs y ys hne ih1 ih2 ih3 =>
    rw [levenshteinDistance, if_neg hne]
    have h1 := min_le_left (levenshteinDistance xs ys)
      (min (levenshteinDistance (x :: xs) ys) (levenshteinDistance xs (y :: ys)))
    simp only [List.length_cons]
    omega

theorem ratio_bounds {a b : Nat} (hab : a ≤ b) :
    0 ≤ (a : ℚ) / b ∧ (a : ℚ) / b ≤ 1 := by
  constructor
  · apply div_nonneg <;> positivity
  · rcases Nat.eq_zero_or_pos b with hb | hb
    · have ha : a = 0 := by omega
      subst ha; subst hb; norm_num
    · rw [div_le_one (by exact_mod_cast hb)]
      exact_mod_cast hab

theorem sub_ratio_bounds {d L : Nat} (hd : d ≤ L) (hL : 0 < L) :
    0 ≤ ((L : ℚ) - d) / L ∧ ((L : ℚ) - d) / L ≤ 1 := by
  have hLq : (0 : ℚ) < L := by exact_mod_cast hL
  constructor
  · apply div_nonneg _ (le_of_lt hLq)
    have hdq : (d : ℚ) ≤ L := by exact_mod_cast hd
    linarith
  · rw [div_le_one hLq]
    have hdq : (0 : ℚ) ≤ d := by positivity
    linarith

/-- C10: whenever at least one argument is non-empty, `fuzzyScore` lands in
[0, 1]: the containment shortcut returns shorter/longer, and the Levenshtein
branch returns (longer − d)/longer where the edit distance d never exceeds the
longer string's length. -/
theorem claim10_fuzzyScore_bounds :
    (∀ s1 s2 : List Char, (s1 ≠ [] ∨ s2 ≠ []) →
      0 ≤ fuzzyScore s1 s2 ∧ fuzzyScore s1 s2 ≤ 1) ∧
    (∀ a b : List Char, levenshteinDistance a b ≤ max a.length b.length) := by
  refine ⟨?_, levenshteinDistance_le_max⟩
  intro s1 s2 _
  unfold fuzzyScore
  by_cases hc : s2.length < s1.length
  · simp only [if_pos hc]
    split_ifs with h1 h2
    · exact ratio_bounds (le_of_lt hc)
    · norm_num
    · refine sub_ratio_bounds ?_ (Nat.pos_of_ne_zero h2)
      calc levenshteinDistance s1 s2 ≤ max s1.length s2.length :=
            levenshteinDistance_le_max s1 s2
        _ = s1.length := Nat.max_eq_left (le_of_lt hc)
  · simp only [if_neg hc]
    have hle : s1.length ≤ s2.length := Nat.le_of_not_lt hc
    split_ifs with h1 h2
    · exact ratio_bounds hle
    · norm_num
    · refine sub_ratio_bounds ?_ (Nat.pos_of_ne_zero h2)
      calc levenshteinDistance s2 s1 ≤ max s2.length s1.length :=
            levenshteinDistance_le_max s2 s1
        _ = s2.length := Nat.max_eq_left hle

/-- Witness for C10 at concrete strings hitting the Levenshtein branch. -/
theorem claim10_witness :
    0 ≤ fuzzyScore (("abc").data) (("xyz").data) ∧
    fuzzyScore (("abc").data) (("xyz").data) ≤ 1 :=
  claim10_fuzzyScore_bounds.1 (("abc").data) (("xyz").data) (Or.inl (by decide))

-- # Flat-file cache loader (`music/src/cache.ts`)

/-- A JSON value as produced by `JSON.parse`. -/
inductive Json where
  | null : Json
  | bool (b : Bool) : Json
  | num (n : Int) : Json
  | str (s : List Char) : Json
  | arr (xs : List Json) : Json
  | obj (fields : List (List Char × Json)) : Json

/-- JS truthiness of a JSON value (no `NaN` arises from the repository's
numeric fields, which are integral counts). -/
def jsTruthy : Json → Bool
  | .null => false
  | .bool b => b
  | .num n => n != 0
  | .str s => s != []
  | .arr _ => true
  | .obj _ => true

/-- JS property access `v[key]`: `some` for an object field that exists,
`none` (undefined) otherwise.  Access on `null` throws and is handled at the
call sites. -/
def getField : Json → List Char → Option Json
  | .obj fields, key => fields.lookup key
  | _, _ => none

/-- JS `a || b` where `a` may be undefined. -/
def jsOr (a : Option Json) (b : Json) : Json :=
  match a with
  | some v => if jsTruthy v then v else b
  | none => b

/-- The record built for each cached row (in JS the field values are whatever
the JSON held, so they are modelled as `Json`). -/
structure RawRelease where
  title : Json
  path : Json
  track_count : Json

def titleKey : List Char := ("title").data
def pathKey : List Char := ("path").data
def trackCountKey : List Char := ("track_count").data
def legacyTrackCountKey : List Char := ("trackCount").data

/-- The per-row conversion inside `loadReleasesFromCache`.  Property access on
a `null` row throws (`none`); every other row yields a record with the
`|| ""` / `|| 0` defaults and the legacy `trackCount` fallback. -/
def rowToRelease (row : Json) : Option RawRelease :=
  match row with
  | .null => none
  | row =>
    some
      { title := jsOr (getField row titleKey) (.str [])
        path := jsOr (getField row pathKey) (.str [])
        track_count :=
          jsOr (getField row trackCountKey)
            (jsOr (getField row legacyTrackCountKey) (.num 0)) }

/-- The state of the releases cache file as seen by the loader: absent,
present but not valid JSON, or parsed to a JSON value. -/
inductive CacheFile where
  | missing : CacheFile
  | malformed : CacheFile
  | parsed (j : Json) : CacheFile

/-- `loadReleasesFromCache` from `music/src/cache.ts`: missing file returns
`[]`; malformed JSON is caught and returns `[]`; a parsed non-array value
makes `rawReleases.map` throw, which the same catch turns into `[]`; a parsed
array is mapped row by row, any throwing row aborting to `[]` via the catch. -/
def loadReleasesFromCache : CacheFile → List RawRelease
  | .missing => []
  | .malformed => []
  | .parsed (.arr rows) =>
    match rows.mapM rowToRelease with
    | some rs => rs
    | none => []
  | .parsed _ => []

-- # Process killer guard (`part_000` of the process extension)

/-- `isSystemProcess` from the process-management extension. -/
def isSystemProcess (pid : Int) : Bool :=
  pid == 0 || pid == 1

/-- Toast notifications shown by `killProcess`. -/
inductive ToastMsg where
  | cannotKillSystem (pid : Int) : ToastMsg
  | sentSignal (signal : List Char) (pid : Int) : ToastMsg
  | failedSignal (signal : List Char) (pid : Int) : ToastMsg
deriving DecidableEq

/-- Observable effects of one `killProcess` call. -/
inductive KillEffect where
  | toastFailure (msg : ToastMsg) : KillEffect
  | toastSuccess (msg : ToastMsg) : KillEffect
  | processKill (pid : Int) (signal : List Char) : KillEffect
deriving DecidableEq

/-- `killProcess(pid, signal)`: guarded by `isSystemProcess`; otherwise it
invokes `process.kill` (whose success is the environment input `killOk`) and
shows the matching toast. -/
def killProcess (pid : Int) (signal : List Char) (killOk : Bool) :
    List KillEffect :=
  if isSystemProcess pid then
    [.toastFailure (.cannotKillSystem pid)]
  else
    if killOk then
      [.processKill pid signal, .toastSuccess (.sentSignal signal pid)]
    else
      [.processKill pid signal, .toastFailure (.failedSignal signal pid)]

-- # Claims about the cache loader and the kill guard

/-- C8: the cache loader never throws — a missing file and malformed JSON both
yield `[]`; a successfully parsed array is mapped row by row (a throwing row
aborts to `[]` through the catch); absent fields default to `""`/`0` and the
legacy `trackCount` key is the fallback source for `track_count`. -/
theorem claim8_load_cache :
    (loadReleasesFromCache .missing = [] ∧
     loadReleasesFromCache .malformed = []) ∧
    (∀ (rows : List Json) (rs : List RawRelease),
      rows.mapM rowToRelease = some rs →
      loadReleasesFromCache (.parsed (.arr rows)) = rs) ∧
    (∀ rows : List Json, rows.mapM rowToRelease = none →
      loadReleasesFromCache (.parsed (.arr rows)) = []) ∧
    (∀ (fields : List (List Char × Json)) (rel : RawRelease),
      rowToRelease (.obj fields) = some rel →
      (fields.lookup titleKey = none → rel.title = .str []) ∧
      (fields.lookup pathKey = none → rel.path = .str []) ∧
      (fields.lookup trackCountKey = none →
        fields.lookup legacyTrackCountKey = none → rel.track_count = .num 0) ∧
      (∀ v : Json, fields.lookup trackCountKey = none →
        fields.lookup legacyTrackCountKey = some v → jsTruthy v = true →
        rel.track_count = v)) := by
  refine ⟨⟨rfl, rfl⟩, ?_, ?_, ?_⟩
  · intro rows rs h
    simp only [List.mapM] at h
    simp [loadReleasesFromCache, h]
  · intro rows h
    simp only [List.mapM] at h
    simp [loadReleasesFromCache, h]
  · intro fields rel h
    simp only [rowToRelease, Option.some.injEq] at h
    subst h
    refine ⟨?_, ?_, ?_, ?_⟩
    · intro hl; simp [getField, jsOr, hl]
    · intro hl; simp [getField, jsOr, hl]
    · intro hl1 hl2; simp [getField, jsOr, hl1, hl2]
    · intro v hl1 hl2 htr; simp [getField, jsOr, hl1, hl2, htr]

/-- Witness for C8: a two-row array with one legacy row maps as described. -/
theorem claim8_witness :
    loadReleasesFromCache
      (.parsed (.arr [Json.obj [(titleKey, .str (("x").data)),
        (legacyTrackCountKey, .num 7)]])) =
      [⟨.str (("x").data), .str [], .num 7⟩] :=
  claim8_load_cache.2.1 [Json.obj [(titleKey, .str (("x").data)),
    (legacyTrackCountKey, .num 7)]] [⟨.str (("x").data), .str [], .num 7⟩] rfl

/-- C9: `killProcess` never signals PID 0 or 1: under the guard it emits only
the failure toast, and no `processKill` effect occurs. -/
theorem claim9_kill_guard (pid : Int) (signal : List Char) (killOk : Bool)
    (h : pid = 0 ∨ pid = 1) :
    killProcess pid signal killOk =
      [KillEffect.toastFailure (ToastMsg.cannotKillSystem pid)] ∧
    ∀ e ∈ killProcess pid signal killOk, ∀ (q : Int) (s : List Char),
      e ≠ KillEffect.processKill q s := by
  have hsys : isSystemProcess pid = true := by
    rcases h with h | h <;> subst h <;> rfl
  have heq : killProcess pid signal killOk =
      [KillEffect.toastFailure (ToastMsg.cannotKillSystem pid)] := by
    simp [killProcess, hsys]
  refine ⟨heq, ?_⟩
  intro e he q s
  rw [heq] at he
  simp at he
  subst he
  exact fun hcontra => KillEffect.noConfusion hcontra

/-- Witness for C9 at pid 1. -/
theorem claim9_witness :
    killProcess 1 (("SIGTERM").data) true =
      [KillEffect.toastFailure (ToastMsg.cannotKillSystem 1)] :=
  (claim9_kill_guard 1 (("SIGTERM").data) true (Or.inr rfl)).1

-- # Directory scanner (`music/src/scanner.ts`)

/-- The fixed audio extension list from `scanner.ts`. -/
def AUDIO_EXTENSIONS : List (List Char) :=
  [(".mp3").data, (".flac").data, (".wav").data, (".m4a").data, (".aac").data,
   (".ogg").data, (".opus").data, (".wma").data, (".ape").data, (".alac").data]

/-- JS `s.lastIndexOf(c)`: last index of `c`, or −1. -/
def lastIndexOf (c : Char) : List Char → Int
  | [] => -1
  | x :: rest =>
    let r := lastIndexOf c rest
    if r ≥ 0 then r + 1 else if x = c then 0 else -1

/-- JS `s.slice(i)` for a single (possibly negative) start index. -/
def jsSlice (l : List Char) (i : Int) : List Char :=
  if i < 0 then l.drop (l.length - (-i).toNat) else l.drop i.toNat

/-- `isAudioFile` from `scanner.ts`:
`AUDIO_EXTENSIONS.includes(filename.toLowerCase().slice(filename.lastIndexOf(".")))`. -/
def isAudioFile (filename : List Char) : Bool :=
  AUDIO_EXTENSIONS.contains (jsSlice (lowerStr filename) (lastIndexOf '.' filename))

/-- One-pass automaton for `stripDelim`.  `none` means outside any bracketed
span; `some buf` means a span opener was seen and `buf` buffers the characters
consumed so far, to be restored verbatim if the input ends with no closer. -/
def stripDelimGo (o c : Char) : Option (List Char) → List Char → List Char
  | none, [] => []
  | none, x :: rest =>
    if x = o then stripDelimGo o c (some [x]) rest
    else x :: stripDelimGo o c none rest
  | some buf, [] => buf
  | some buf, x :: rest =>
    if x = c then stripDelimGo o c none rest
    else stripDelimGo o c (some (buf ++ [x])) rest

/-- JS `s.replace(/o.*?c/g, "")` for single delimiter characters `o`, `c`
(used for the `\[.*?\]` and `\(.*?\)` patterns of `cleanReleaseTitle`): each
opener with a later closer is removed together with everything between them
(lazily, up to the next closer); an opener with no later closer is kept. -/
def stripDelim (o c : Char) (l : List Char) : List Char :=
  stripDelimGo o c none l

/-- JS `s.replace(/ - .*$/g, "")`: cut from the first " - " to the end. -/
def dropFromDashSub : List Char → List Char
  | [] => []
  | x :: rest =>
    if (x :: rest).take 3 = [' ', '-', ' '] then []
    else x :: dropFromDashSub rest

/-- Archive suffixes of `cleanReleaseTitle`'s `\.(zip|rar|tar\.gz|7z|gz|bz2)$`
pattern, longest first (regex leftmost matching makes `.tar.gz` win over
`.gz`). -/
def ARCHIVE_SUFFIXES : List (List Char) :=
  [(".tar.gz").data, (".zip").data, (".rar").data, (".bz2").data,
   (".7z").data, (".gz").data]

/-- Case-insensitive anchored archive-suffix removal (at most one match since
the regex has no `g` flag and is `$`-anchored). -/
def stripArchive (l : List Char) : List Char :=
  match ARCHIVE_SUFFIXES.find? (fun s => decide (s <:+ lowerStr l)) with
  | some s => l.take (l.length - s.length)
  | none => l

/-- `cleanReleaseTitle` from `scanner.ts`, applying the source's replacement
chain in order. -/
def cleanReleaseTitle (title : List Char) : List Char :=
  trimStr (collapseRuns isWs ' '
    (collapseRuns (fun c => c == '-') '-'
      ((stripArchive (dropFromDashSub
        (stripDelim '(' ')' (stripDelim '[' ']' title)))).map
          (fun c => if c = '_' then ' ' else c))))

-- # Filesystem model and the second-pass walk of `scanMusicDirectory`

/-- One `Dirent` of a directory listing.  Symbolic directory links carry the
index of the real directory they resolve to; broken symlinks throw on
`realpathSync` and are skipped with a warning. -/
inductive Entry (n : Nat) where
  | subdir (name : List Char) (id : Fin n) : Entry n
  | symlinkDir (name : List Char) (target : Fin n) : Entry n
  | fileEntry (name : List Char) : Entry n
  | symlinkFile (name : List Char) : Entry n
  | brokenSymlink (name : List Char) : Entry n
deriving DecidableEq

/-- A finite filesystem: `n` real directories, each with a listing and a
canonical real path (the value `realpathSync` returns for it).  Symlink
cycles are simply `symlinkDir` entries pointing back at an ancestor. -/
structure FS (n : Nat) where
  entries : Fin n → List (Entry n)
  realPath : Fin n → List Char

/-- JS `name.startsWith(".")`. -/
def startsWithDot : List Char → Bool
  | [] => false
  | c :: _ => c == '.'

/-- JS `s.split("/")`. -/
def splitSlash : List Char → List (List Char)
  | [] => [[]]
  | c :: rest =>
    match splitSlash rest with
    | [] => [[c]]
    | s :: ss => if c = '/' then [] :: s :: ss else (c :: s) :: ss

/-- Node `join(dir, name)` for a plain entry name. -/
def joinPath (dir name : List Char) : List Char :=
  dir ++ '/' :: name

/-- The depth guard `fullPath.split("/").length - musicDir.split("/").length > 10`. -/
def tooDeep (root p : List Char) : Bool :=
  ((splitSlash p).length : Int) - ((splitSlash root).length : Int) > 10

/-- JS `dir.split("/").pop() || dir` used for the release title. -/
def lastSegmentOr (dir : List Char) : List Char :=
  match (splitSlash dir).getLast? with
  | some s => if s = [] then dir else s
  | none => dir

/-- The release record built when a directory is emitted. -/
def mkRelease (dir : List Char) (audio : Nat) : ReleaseData :=
  { title := cleanReleaseTitle (lastSegmentOr dir), path := dir, track_count := audio }

/-- Mutable traversal state: `visitedPaths` (resolved directories, as indices)
and `foundReleases` (emitted traversal paths). -/
structure ScanState (n : Nat) where
  visited : Finset (Fin n)
  found : Finset (List Char)
deriving DecidableEq

/-- Result of walking one directory.  `emitted` pairs each yielded release
with the resolved directory (its `Fin n` index) it was emitted for; `ok` is
false only if the structural fuel ran out (the termination theorem shows the
default fuel never does). -/
structure WalkOut (n : Nat) where
  st : ScanState n
  emitted : List (Fin n × ReleaseData)
  ok : Bool
deriving DecidableEq

/-- Result of the entries loop of one directory: also counts the audio files
found directly in the directory. -/
structure EntriesOut (n : Nat) where
  st : ScanState n
  emitted : List (Fin n × ReleaseData)
  audio : Nat
  ok : Bool
deriving DecidableEq

/-- The body of the `for (const entry of entries)` loop of `walk`, with the
recursive call on child directories abstracted as `child` (instantiated with
the walk at the next-smaller fuel).  Mirrors the source's order: directories
are recursed into (hidden and too-deep ones skipped), symlinks are resolved
and treated as directories or audio files, broken symlinks are skipped, and
plain audio files are counted. -/
def walkEntriesGo (fs : FS n) (root : List Char)
    (child : List Char → Fin n → ScanState n → WalkOut n) :
    List (Entry n) → List Char → ScanState n → EntriesOut n
  | [], _dir, st => ⟨st, [], 0, true⟩
  | e :: es, dir, st =>
    match e with
    | .subdir name cid =>
      if startsWithDot name then walkEntriesGo fs root child es dir st
      else if tooDeep root (joinPath dir name) then walkEntriesGo fs root child es dir st
      else
        let w := child (joinPath dir name) cid st
        let r := walkEntriesGo fs root child es dir w.st
        ⟨r.st, w.emitted ++ r.emitted, r.audio, w.ok && r.ok⟩
    | .symlinkDir name tid =>
      if startsWithDot name then walkEntriesGo fs root child es dir st
      else if tooDeep root (fs.realPath tid) then walkEntriesGo fs root child es dir st
      else
        let w := child (fs.realPath tid) tid st
        let r := walkEntriesGo fs root child es dir w.st
        ⟨r.st, w.emitted ++ r.emitted, r.audio, w.ok && r.ok⟩
    | .fileEntry name =>
      let r := walkEntriesGo fs root child es dir st
      ⟨r.st, r.emitted, (if isAudioFile name then 1 else 0) + r.audio, r.ok⟩
    | .symlinkFile name =>
      let r := walkEntriesGo fs root child es dir st
      ⟨r.st, r.emitted, (if isAudioFile name then 1 else 0) + r.audio, r.ok⟩
    | .brokenSymlink _name => walkEntriesGo fs root child es dir st

/-- `walk(dir)` of `scanMusicDirectory`: skip an already-visited resolved
directory, mark it visited, process its entries, and — unless the directory is
the scan root or its traversal path was already emitted — yield one release
counting the directory's direct audio files.  Structural fuel bounds the
nesting depth of recursive `walk` calls; each nested call consumes a fresh
directory, so `n + 1` fuel always suffices (proved below). -/
def walkDir (fs : FS n) (root : List Char) :
    Nat → List Char → Fin n → ScanState n → WalkOut n
  | 0, _dir, _dirId, st => ⟨st, [], false⟩
  | fuel + 1, dir, dirId, st =>
    if dirId ∈ st.visited then ⟨st, [], true⟩
    else
      let st1 : ScanState n := ⟨insert dirId st.visited, st.found⟩
      let r := walkEntriesGo fs root (walkDir fs root fuel) (fs.entries dirId) dir st1
      if dir ≠ root then
        if dir ∈ r.st.found then ⟨r.st, r.emitted, r.ok⟩
        else
          ⟨⟨r.st.visited, insert dir r.st.found⟩,
            r.emitted ++ [(dirId, mkRelease dir r.audio)], r.ok⟩
      else ⟨r.st, r.emitted, r.ok⟩

/-- The whole second pass of `scanMusicDirectory`, starting from the music
root with empty visit/emission sets and the always-sufficient fuel `n + 1`. -/
def scanMusicDirectory (fs : FS n) (root : List Char) (rootId : Fin n) : WalkOut n :=
  walkDir fs root (n + 1) root rootId ⟨∅, ∅⟩

-- # Walk invariants: visited-set monotonicity

theorem walkEntriesGo_visited_mono {n : Nat} (fs : FS n) (root : List Char)
    (child : List Char → Fin n → ScanState n → WalkOut n)
    (hMono : ∀ p i st, st.visited ⊆ (child p i st).st.visited) :
    ∀ (es : List (Entry n)) (dir : List Char) (st : ScanState n),
      st.visited ⊆ (walkEntriesGo fs root child es dir st).st.visited := by
  intro es
  induction es with
  | nil => intro dir st; exact Finset.Subset.refl _
  | cons e es ih =>
    intro dir st
    cases e with
    | subdir name cid =>
      simp only [walkEntriesGo]
      split
      · exact ih dir st
      · split
        · exact ih dir st
        · exact Finset.Subset.trans (hMono _ _ _) (ih dir _)
    | symlinkDir name tid =>
      simp only [walkEntriesGo]
      split
      · exact ih dir st
      · split
        · exact ih dir st
        · exact Finset.Subset.trans (hMono _ _ _) (ih dir _)
    | fileEntry name => exact ih dir st
    | symlinkFile name => exact ih dir st
    | brokenSymlink name => exact ih dir st

theorem walkDir_visited_mono {n : Nat} (fs : FS n) (root : List Char) :
    ∀ (fuel : Nat) (dir : List Char) (i : Fin n) (st : ScanState n),
      st.visited ⊆ (walkDir fs root fuel dir i st).st.visited := by
  intro fuel
  induction fuel with
  | zero => intro dir i st; exact Finset.Subset.refl _
  | succ fuel ih =>
    intro dir i st
    simp only [walkDir]
    split
    · exact Finset.Subset.refl _
    · have hmid : insert i st.visited ⊆
        (walkEntriesGo fs root (walkDir fs root fuel) (fs.entries i) dir
          ⟨insert i st.visited, st.found⟩).st.visited :=
        walkEntriesGo_visited_mono fs root _ (fun p j stx => ih p j stx)
          (fs.entries i) dir ⟨insert i st.visited, st.found⟩
      have hstep := Finset.Subset.trans (Finset.subset_insert i st.visited) hmid
      split
      · split
        · exact hstep
        · exact hstep
      · exact hstep

-- # Walk invariants: direct audio-file count

/-- Entries counted into `audioFiles` by the loop: plain files and symlinked
files whose name passes `isAudioFile`. -/
def audioEntryPred {n : Nat} : Entry n → Bool
  | .fileEntry name => isAudioFile name
  | .symlinkFile name => isAudioFile name
  | _ => false

theorem walkEntriesGo_audio {n : Nat} (fs : FS n) (root : List Char)
    (child : List Char → Fin n → ScanState n → WalkOut n) :
    ∀ (es : List (Entry n)) (dir : List Char) (st : ScanState n),
      (walkEntriesGo fs root child es dir st).audio = es.countP audioEntryPred := by
  intro es
  induction es with
  | nil => intro dir st; rfl
  | cons e es ih =>
    intro dir st
    cases e with
    | subdir name cid =>
      have hcnt : List.countP audioEntryPred (Entry.subdir name cid :: es) =
          List.countP audioEntryPred es := by
        simp [List.countP_cons, audioEntryPred]
      simp only [walkEntriesGo]
      rw [hcnt]
      split
      · exact ih dir st
      · split
        · exact ih dir st
        · exact ih dir _
    | symlinkDir name tid =>
      have hcnt : List.countP audioEntryPred (Entry.symlinkDir name tid :: es) =
          List.countP audioEntryPred es := by
        simp [List.countP_cons, audioEntryPred]
      simp only [walkEntriesGo]
      rw [hcnt]
      split
      · exact ih dir st
      · split
        · exact ih dir st
        · exact ih dir _
    | fileEntry name =>
      show (if isAudioFile name then 1 else 0) +
        (walkEntriesGo fs root child es dir st).audio =
        List.countP audioEntryPred (Entry.fileEntry name :: es)
      rw [ih dir st]
      cases hA : isAudioFile name <;>
        simp [List.countP_cons, audioEntryPred, hA, Nat.add_comm]
    | symlinkFile name =>
      show (if isAudioFile name then 1 else 0) +
        (walkEntriesGo fs root child es dir st).audio =
        List.countP audioEntryPred (Entry.symlinkFile name :: es)
      rw [ih dir st]
      cases hA : isAudioFile name <;>
        simp [List.countP_cons, audioEntryPred, hA, Nat.add_comm]
    | brokenSymlink name =>
      show (walkEntriesGo fs root child es dir st).audio =
        List.countP audioEntryPred (Entry.brokenSymlink name :: es)
      rw [ih dir st]
      simp [List.countP_cons, audioEntryPred]

-- # Walk invariants: the fuel `n + 1` never runs out

theorem sdiff_card_mono {n : Nat} {s t : Finset (Fin n)} (h : s ⊆ t) :
    (Finset.univ \ t).card ≤ (Finset.univ \ s).card :=
  Finset.card_le_card (Finset.sdiff_subset_sdiff (Finset.Subset.refl _) h)

theorem walkEntriesGo_ok {n : Nat} (fs : FS n) (root : List Char)
    (child : List Char → Fin n → ScanState n → WalkOut n) (fuel : Nat)
    (hMono : ∀ p i st, st.visited ⊆ (child p i st).st.visited)
    (hOk : ∀ p i st, (Finset.univ \ st.visited).card < fuel → (child p i st).ok = true) :
    ∀ (es : List (Entry n)) (dir : List Char) (st : ScanState n),
      (Finset.univ \ st.visited).card < fuel →
      (walkEntriesGo fs root child es dir st).ok = true := by
  intro es
  induction es with
  | nil => intro dir st _; rfl
  | cons e es ih =>
    intro dir st hlt
    cases e with
    | subdir name cid =>
      simp only [walkEntriesGo]
      split
      · exact ih dir st hlt
      · split
        · exact ih dir st hlt
        · have hw := hOk (joinPath dir name) cid st hlt
          have hr := ih dir (child (joinPath dir name) cid st).st
            (lt_of_le_of_lt (sdiff_card_mono (hMono _ _ _)) hlt)
          simp only [EntriesOut.ok, hw, hr, Bool.and_self]
    | symlinkDir name tid =>
      simp only [walkEntriesGo]
      split
      · exact ih dir st hlt
      · split
        · exact ih dir st hlt
        · have hw := hOk (fs.realPath tid) tid st hlt
          have hr := ih dir (child (fs.realPath tid) tid st).st
            (lt_of_le_of_lt (sdiff_card_mono (hMono _ _ _)) hlt)
          simp only [EntriesOut.ok, hw, hr, Bool.and_self]
    | fileEntry name => exact ih dir st hlt
    | symlinkFile name => exact ih dir st hlt
    | brokenSymlink name => exact ih dir st hlt

theorem walkDir_ok {n : Nat} (fs : FS n) (root : List Char) :
    ∀ (fuel : Nat) (dir : List Char) (i : Fin n) (st : ScanState n),
      (Finset.univ \ st.visited).card < fuel →
      (walkDir fs root fuel dir i st).ok = true := by
  intro fuel
  induction fuel with
  | zero => intro dir i st hlt; omega
  | succ fuel ih =>
    intro dir i st hlt
    simp only [walkDir]
    split
    · rfl
    · rename_i hvis
      have hidiff : i ∈ Finset.univ \ st.visited :=
        Finset.mem_sdiff.mpr ⟨Finset.mem_univ _, hvis⟩
      have hcard : (Finset.univ \ insert i st.visited).card < fuel := by
        have heq : Finset.univ \ insert i st.visited =
            (Finset.univ \ st.visited).erase i := by
          ext x
          simp only [Finset.mem_sdiff, Finset.mem_erase, Finset.mem_insert,
            Finset.mem_univ, true_and]
          tauto
        have hpos : 0 < (Finset.univ \ st.visited).card :=
          Finset.card_pos.mpr ⟨i, hidiff⟩
        rw [heq, Finset.card_erase_of_mem hidiff]
        omega
      have hok : (walkEntriesGo fs root (walkDir fs root fuel) (fs.entries i) dir
          ⟨insert i st.visited, st.found⟩).ok = true :=
        walkEntriesGo_ok fs root _ fuel
          (fun p j stx => walkDir_visited_mono fs root fuel p j stx)
          (fun p j stx hx => ih p j stx hx)
          (fs.entries i) dir ⟨insert i st.visited, st.found⟩ hcard
      split
      · split
        · exact hok
        · exact hok
      · exact hok

-- # Walk invariants: each resolved directory is emitted at most once

theorem walkEntriesGo_emitted_inv {n : Nat} (fs : FS n) (root : List Char)
    (child : List Char → Fin n → ScanState n → WalkOut n)
    (hMono : ∀ p i st, st.visited ⊆ (child p i st).st.visited)
    (hInv : ∀ p i st, ((child p i st).emitted.map Prod.fst).Nodup ∧
      ∀ x ∈ (child p i st).emitted.map Prod.fst,
        x ∉ st.visited ∧ x ∈ (child p i st).st.visited) :
    ∀ (es : List (Entry n)) (dir : List Char) (st : ScanState n),
      ((walkEntriesGo fs root child es dir st).emitted.map Prod.fst).Nodup ∧
      ∀ x ∈ (walkEntriesGo fs root child es dir st).emitted.map Prod.fst,
        x ∉ st.visited ∧ x ∈ (walkEntriesGo fs root child es dir st).st.visited := by
  intro es
  induction es with
  | nil =>
    intro dir st
    exact ⟨List.nodup_nil, by intro x hx; simp [walkEntriesGo] at hx⟩
  | cons e es ih =>
    intro dir st
    cases e with
    | subdir name cid =>
      simp only [walkEntriesGo]
      split
      · exact ih dir st
      · split
        · exact ih dir st
        · obtain ⟨hwnd, hwmem⟩ := hInv (joinPath dir name) cid st
          obtain ⟨hrnd, hrmem⟩ := ih dir (child (joinPath dir name) cid st).st
          constructor
          · show (((child (joinPath dir name) cid st).emitted ++
              (walkEntriesGo fs root child es dir
                (child (joinPath dir name) cid st).st).emitted).map Prod.fst).Nodup
            rw [List.map_append]
            refine List.Nodup.append hwnd hrnd ?_
            intro x hxw hxr
            exact absurd (hwmem x hxw).2 (hrmem x hxr).1
          · intro x hx
            rw [List.map_append, List.mem_append] at hx
            rcases hx with hx | hx
            · refine ⟨(hwmem x hx).1, ?_⟩
              exact walkEntriesGo_visited_mono fs root child hMono es dir _
                ((hwmem x hx).2)
            · refine ⟨?_, (hrmem x hx).2⟩
              intro hxst
              exact (hrmem x hx).1 (hMono _ _ _ hxst)
    | symlinkDir name tid =>
      simp only [walkEntriesGo]
      split
      · exact ih dir st
      · split
        · exact ih dir st
        · obtain ⟨hwnd, hwmem⟩ := hInv (fs.realPath tid) tid st
          obtain ⟨hrnd, hrmem⟩ := ih dir (child (fs.realPath tid) tid st).st
          constructor
          · show (((child (fs.realPath tid) tid st).emitted ++
              (walkEntriesGo fs root child es dir
                (child (fs.realPath tid) tid st).st).emitted).map Prod.fst).Nodup
            rw [List.map_append]
            refine List.Nodup.append hwnd hrnd ?_
            intro x hxw hxr
            exact absurd (hwmem x hxw).2 (hrmem x hxr).1
          · intro x hx
            rw [List.map_append, List.mem_append] at hx
            rcases hx with hx | hx
            · refine ⟨(hwmem x hx).1, ?_⟩
              exact walkEntriesGo_visited_mono fs root child hMono es dir _
                ((hwmem x hx).2)
            · refine ⟨?_, (hrmem x hx).2⟩
              intro hxst
              exact (hrmem x hx).1 (hMono _ _ _ hxst)
    | fileEntry name => exact ih dir st
    | symlinkFile name => exact ih dir st
    | brokenSymlink name => exact ih dir st

theorem walkDir_emitted_inv {n : Nat} (fs : FS n) (root : List Char) :
    ∀ (fuel : Nat) (dir : List Char) (i : Fin n) (st : ScanState n),
      ((walkDir fs root fuel dir i st).emitted.map Prod.fst).Nodup ∧
      ∀ x ∈ (walkDir fs root fuel dir i st).emitted.map Prod.fst,
        x ∉ st.visited ∧ x ∈ (walkDir fs root fuel dir i st).st.visited := by
  intro fuel
  induction fuel with
  | zero =>
    intro dir i st
    exact ⟨List.nodup_nil, by intro x hx; simp [walkDir] at hx⟩
  | succ fuel ih =>
    intro dir i st
    simp only [walkDir]
    split
    · exact ⟨List.nodup_nil, by intro x hx; simp at hx⟩
    · rename_i hvis
      obtain ⟨hrnd, hrmem⟩ := walkEntriesGo_emitted_inv fs root (walkDir fs root fuel)
        (fun p j stx => walkDir_visited_mono fs root fuel p j stx)
        (fun p j stx => ih p j stx)
        (fs.entries i) dir ⟨insert i st.visited, st.found⟩
      have hsub : insert i st.visited ⊆
          (walkEntriesGo fs root (walkDir fs root fuel) (fs.entries i) dir
            ⟨insert i st.visited, st.found⟩).st.visited :=
        walkEntriesGo_visited_mono fs root _
          (fun p j stx => walkDir_visited_mono fs root fuel p j stx)
          (fs.entries i) dir ⟨insert i st.visited, st.found⟩
      have hRpart : ∀ x ∈ (walkEntriesGo fs root (walkDir fs root fuel)
          (fs.entries i) dir ⟨insert i st.visited, st.found⟩).emitted.map Prod.fst,
          x ∉ st.visited ∧ x ∈ (walkEntriesGo fs root (walkDir fs root fuel)
            (fs.entries i) dir ⟨insert i st.visited, st.found⟩).st.visited := by
        intro x hx
        refine ⟨?_, (hrmem x hx).2⟩
        intro hxst
        exact (hrmem x hx).1 (Finset.mem_insert_of_mem hxst)
      split
      · split
        · exact ⟨hrnd, hRpart⟩
        · constructor
          · show ((((walkEntriesGo fs root (walkDir fs root fuel) (fs.entries i) dir
              ⟨insert i st.visited, st.found⟩).emitted) ++
              [(i, mkRelease dir (walkEntriesGo fs root (walkDir fs root fuel)
                (fs.entries i) dir ⟨insert i st.visited, st.found⟩).audio)]).map
                  Prod.fst).Nodup
            rw [List.map_append]
            refine List.Nodup.append hrnd (List.nodup_singleton _) ?_
            intro x hxr hxs
            simp only [List.map_cons, List.map_nil, List.mem_singleton] at hxs
            subst hxs
            exact (hrmem x hxr).1 (Finset.mem_insert_self _ _)
          · intro x hx
            rw [List.map_append, List.mem_append] at hx
            rcases hx with hx | hx
            · exact hRpart x hx
            · simp only [List.map_cons, List.map_nil, List.mem_singleton] at hx
              subst hx
              exact ⟨hvis, hsub (Finset.mem_insert_self _ _)⟩
      · exact ⟨hrnd, hRpart⟩

-- # Walk invariants: emitted track counts

theorem walkEntriesGo_track_counts {n : Nat} (fs : FS n) (root : List Char)
    (child : List Char → Fin n → ScanState n → WalkOut n)
    (hChild : ∀ p i st pr, pr ∈ (child p i st).emitted →
      pr.2.track_count = (fs.entries pr.1).countP audioEntryPred) :
    ∀ (es : List (Entry n)) (dir : List Char) (st : ScanState n)
      (pr : Fin n × ReleaseData),
      pr ∈ (walkEntriesGo fs root child es dir st).emitted →
      pr.2.track_count = (fs.entries pr.1).countP audioEntryPred := by
  intro es
  induction es with
  | nil => intro dir st pr hpr; simp [walkEntriesGo] at hpr
  | cons e es ih =>
    intro dir st pr hpr
    cases e with
    | subdir name cid =>
      simp only [walkEntriesGo] at hpr
      split at hpr
      · exact ih dir st pr hpr
      · split at hpr
        · exact ih dir st pr hpr
        · rw [List.mem_append] at hpr
          rcases hpr with hpr | hpr
          · exact hChild _ _ _ pr hpr
          · exact ih dir _ pr hpr
    | symlinkDir name tid =>
      simp only [walkEntriesGo] at hpr
      split at hpr
      · exact ih dir st pr hpr
      · split at hpr
        · exact ih dir st pr hpr
        · rw [List.mem_append] at hpr
          rcases hpr with hpr | hpr
          · exact hChild _ _ _ pr hpr
          · exact ih dir _ pr hpr
    | fileEntry name => exact ih dir st pr hpr
    | symlinkFile name => exact ih dir st pr hpr
    | brokenSymlink name => exact ih dir st pr hpr

theorem walkDir_track_counts {n : Nat} (fs : FS n) (root : List Char) :
    ∀ (fuel : Nat) (dir : List Char) (i : Fin n) (st : ScanState n)
      (pr : Fin n × ReleaseData),
      pr ∈ (walkDir fs root fuel dir i st).emitted →
      pr.2.track_count = (fs.entries pr.1).countP audioEntryPred := by
  intro fuel
  induction fuel with
  | zero => intro dir i st pr hpr; simp [walkDir] at hpr
  | succ fuel ih =>
    intro dir i st pr hpr
    simp only [walkDir] at hpr
    split at hpr
    · simp at hpr
    · split at hpr
      · split at hpr
        · exact walkEntriesGo_track_counts fs root _
            (fun p j stx prx hprx => ih p j stx prx hprx) _ dir _ pr hpr
        · rw [List.mem_append] at hpr
          rcases hpr with hpr | hpr
          · exact walkEntriesGo_track_counts fs root _
              (fun p j stx prx hprx => ih p j stx prx hprx) _ dir _ pr hpr
          · simp only [List.mem_singleton] at hpr
            subst hpr
            show (mkRelease dir _).track_count = _
            unfold mkRelease
            exact walkEntriesGo_audio fs root _ (fs.entries i) dir _
      · exact walkEntriesGo_track_counts fs root _
          (fun p j stx prx hprx => ih p j stx prx hprx) _ dir _ pr hpr

-- # `isAudioFile` extension semantics

theorem lastIndexOf_no_dot : ∀ {l : List Char}, '.' ∉ l → lastIndexOf '.' l = -1 := by
  intro l
  induction l with
  | nil => intro _; rfl
  | cons x rest ih =>
    intro h
    have hx : x ≠ '.' := fun he => h (he ▸ List.mem_cons_self _ _)
    have hrest : '.' ∉ rest := fun hm => h (List.mem_cons_of_mem _ hm)
    simp only [lastIndexOf, ih hrest]
    norm_num
    exact hx

theorem lastIndexOf_append_dot :
    ∀ (pre : List Char) {ext : List Char}, '.' ∉ ext →
      lastIndexOf '.' (pre ++ '.' :: ext) = (pre.length : Int) := by
  intro pre
  induction pre with
  | nil =>
    intro ext h
    simp only [List.nil_append, lastIndexOf, lastIndexOf_no_dot h]
    norm_num
  | cons p ps ih =>
    intro ext h
    simp only [List.cons_append, lastIndexOf, List.append_eq, ih h]
    have hge : ((ps.length : Int)) ≥ 0 := by positivity
    rw [if_pos hge]
    simp

theorem jsSlice_natCast (l : List Char) (k : Nat) :
    jsSlice l (k : Int) = l.drop k := by
  unfold jsSlice
  rw [if_neg (by omega)]
  rw [Int.toNat_natCast]

theorem jsLowerChar_dot : jsLowerChar '.' = '.' := by decide

/-- The extensions without their leading dots. -/
def RAW_AUDIO_EXTS : List (List Char) :=
  [("mp3").data, ("flac").data, ("wav").data, ("m4a").data, ("aac").data,
   ("ogg").data, ("opus").data, ("wma").data, ("ape").data, ("alac").data]

theorem audio_exts_bridge :
    AUDIO_EXTENSIONS = RAW_AUDIO_EXTS.map (fun e => '.' :: e) := by decide

theorem contains_iff_mem {l : List (List Char)} {x : List Char} :
    l.contains x = true ↔ x ∈ l := by
  simp [List.contains, List.elem_iff]

theorem isAudioFile_ext {pre ext : List Char} (h : '.' ∉ ext) :
    isAudioFile (pre ++ '.' :: ext) = true ↔ lowerStr ext ∈ RAW_AUDIO_EXTS := by
  unfold isAudioFile
  rw [lastIndexOf_append_dot pre h, jsSlice_natCast]
  have hls : lowerStr (pre ++ '.' :: ext) = lowerStr pre ++ '.' :: lowerStr ext := by
    simp [lowerStr, jsLowerChar_dot]
  rw [hls]
  have hdrop : (lowerStr pre ++ '.' :: lowerStr ext).drop pre.length =
      '.' :: lowerStr ext := by
    have hlen : pre.length = (lowerStr pre).length := by simp [lowerStr]
    rw [hlen, List.drop_left]
  rw [hdrop, contains_iff_mem, audio_exts_bridge]
  simp [List.mem_map]

theorem isAudioFile_no_dot {name : List Char} (h : '.' ∉ name) :
    isAudioFile name = false := by
  unfold isAudioFile
  rw [lastIndexOf_no_dot h]
  have hslice : jsSlice (lowerStr name) (-1) =
      (lowerStr name).drop ((lowerStr name).length - 1) := by
    unfold jsSlice
    norm_num
  rw [hslice]
  have hlen : ((lowerStr name).drop ((lowerStr name).length - 1)).length ≤ 1 := by
    rw [List.length_drop]
    omega
  have h4 : ∀ s ∈ AUDIO_EXTENSIONS, 4 ≤ s.length := by decide
  cases hc : AUDIO_EXTENSIONS.contains
      ((lowerStr name).drop ((lowerStr name).length - 1)) with
  | false => rfl
  | true =>
    have hmem := contains_iff_mem.mp hc
    have := h4 _ hmem
    omega

-- # The symlink-loop scenario and the scanner claims

def exRoot : List Char := ("/music").data

/-- Three real directories: the root (0) and two audio-holding subdirectories
A (1) and B (2); A also holds a symlink looping back to the root. -/
def exFS : FS 3 where
  entries := fun i =>
    if i = (0 : Fin 3) then
      [Entry.subdir (("A").data) 1, Entry.subdir (("B").data) 2]
    else if i = (1 : Fin 3) then
      [Entry.fileEntry (("x.mp3").data), Entry.symlinkDir (("loop").data) 0]
    else
      [Entry.fileEntry (("y.flac").data)]
  realPath := fun i =>
    if i = (0 : Fin 3) then ("/music").data
    else if i = (1 : Fin 3) then ("/music/A").data
    else ("/music/B").data

def exScanA : ReleaseData := ⟨("A").data, ("/music/A").data, 1⟩

def exScanB : ReleaseData := ⟨("B").data, ("/music/B").data, 1⟩

/-- C3: the scan always completes within its structural bound (the fuel
`n + 1` is never exhausted), each resolved directory is emitted at most once,
and on the two-subdirectory filesystem with a symlink loop back to the root
exactly the two real subdirectories are emitted. -/
theorem claim3_scan_terminates_and_dedups :
    (∀ (n : Nat) (fs : FS n) (root : List Char) (rootId : Fin n),
      (scanMusicDirectory fs root rootId).ok = true) ∧
    (∀ (n : Nat) (fs : FS n) (root : List Char) (rootId : Fin n),
      ((scanMusicDirectory fs root rootId).emitted.map Prod.fst).Nodup) ∧
    ((scanMusicDirectory exFS exRoot 0).emitted.map Prod.snd =
        [exScanA, exScanB] ∧
      (scanMusicDirectory exFS exRoot 0).ok = true) := by
  refine ⟨?_, ?_, by decide⟩
  · intro n fs root rootId
    apply walkDir_ok
    have hcard : (Finset.univ \ ((∅ : Finset (Fin n)))).card = n := by
      simp [Finset.sdiff_empty]
    show (Finset.univ \ ((⟨∅, ∅⟩ : ScanState n)).visited).card < n + 1
    rw [show ((⟨∅, ∅⟩ : ScanState n)).visited = (∅ : Finset (Fin n)) from rfl, hcard]
    omega
  · intro n fs root rootId
    exact (walkDir_emitted_inv fs root (n + 1) root rootId ⟨∅, ∅⟩).1

/-- C4: every emitted release's `track_count` equals the number of directly
contained (possibly symlinked) file entries whose name passes the audio
extension test — nested directories contribute nothing to the parent — and the
extension test holds exactly when the segment after the last dot, lowercased,
is one of mp3/flac/wav/m4a/aac/ogg/opus/wma/ape/alac (a dotless name never
passes); the count is a non-negative integer. -/
theorem claim4_track_count :
    (∀ (n : Nat) (fs : FS n) (root : List Char) (rootId : Fin n)
        (pr : Fin n × ReleaseData),
      pr ∈ (scanMusicDirectory fs root rootId).emitted →
      pr.2.track_count = (fs.entries pr.1).countP audioEntryPred ∧
      (0 : Int) ≤ (pr.2.track_count : Int)) ∧
    (∀ pre ext : List Char, '.' ∉ ext →
      (isAudioFile (pre ++ '.' :: ext) = true ↔ lowerStr ext ∈ RAW_AUDIO_EXTS)) ∧
    (∀ name : List Char, '.' ∉ name → isAudioFile name = false) := by
  refine ⟨?_, fun pre ext h => isAudioFile_ext h, fun name h => isAudioFile_no_dot h⟩
  intro n fs root rootId pr hpr
  refine ⟨walkDir_track_counts fs root (n + 1) root rootId ⟨∅, ∅⟩ pr hpr, ?_⟩
  positivity

/-- Witness for C4: the emitted release for directory A of the example
filesystem has `track_count` 1, the number of its direct audio files. -/
theorem claim4_witness :
    exScanA.track_count = (exFS.entries 1).countP audioEntryPred ∧
    (0 : Int) ≤ (exScanA.track_count : Int) :=
  claim4_track_count.1 3 exFS exRoot 0 (1, exScanA) (by decide)
